import Mathlib

/-!
Shallow embedding of `src/app/chunksToVideo.py` (class `VideoProcessor`).

The filesystem is modelled as a map from path strings to optional byte
contents (`List Nat`) together with a set of existing directories.  Each
external `ffmpeg` invocation is modelled by a `ProcOutcome` supplied by the
environment: an exit with a code, captured stdout/stderr text, and the bytes
the external tool writes to its output file on success, or a failure to
launch the binary at all (Python `FileNotFoundError`).  Python exceptions
that escape a function are modelled with `Except Unit`.
-/

/-- A filesystem state: file contents by path, plus which directories exist. -/
structure FS where
  files : String → Option (List Nat)
  dirs : String → Bool

/-- Writing a file (Python `open(p, 'wb')` followed by `write`): the path now
holds exactly the given bytes. -/
def FS.write (fs : FS) (p : String) (b : List Nat) : FS :=
  { fs with files := fun q => if q = p then some b else fs.files q }

/-- Deleting one file (Python `Path.unlink`). -/
def FS.remove (fs : FS) (p : String) : FS :=
  { fs with files := fun q => if q = p then none else fs.files q }

/-- Creating a directory (Python `mkdir(parents=True, exist_ok=True)`). -/
def FS.mkdir (fs : FS) (d : String) : FS :=
  { fs with dirs := fun q => if q = d then true else fs.dirs q }

/-- The relation `underDir d q` holds when the path `q` lies inside the directory `d`,
i.e. `d ++ "/"` is a prefix of `q`. -/
def underDir (d q : String) : Bool :=
  (d.data ++ ['/']).isPrefixOf q.data

/-- Recursive deletion of a directory tree, as performed by
`tempfile.TemporaryDirectory` on scope exit: every file and directory inside
`d` disappears, as does `d` itself. -/
def FS.removeTree (fs : FS) (d : String) : FS :=
  { files := fun q => if underDir d q then none else fs.files q,
    dirs := fun q => if q = d then false else if underDir d q then false else fs.dirs q }

/-- The directory `d` is fresh for `fs`: it does not exist yet and no file
lives inside it.  `tempfile.TemporaryDirectory` always returns such a name. -/
def freshDir (fs : FS) (d : String) : Prop :=
  fs.dirs d = false ∧ ∀ q, underDir d q = true → fs.files q = none

/-- Outcome of one external process invocation, decided by the environment:
either the process ran and exited with `code` (writing `written` to its
output file when it succeeded), or the binary could not be launched at all
(Python raises `FileNotFoundError`). -/
inductive ProcOutcome where
  | exit (code : Nat) (stdout : String) (stderr : String) (written : List Nat)
  | launchFailure
deriving DecidableEq

/-- The bytes the external tool writes to its output file on success. -/
def ProcOutcome.written : ProcOutcome → List Nat
  | .exit _ _ _ b => b
  | .launchFailure => []

/-- Lines 23-40, `VideoProcessor.run_ffmpeg`: runs the command with
`check=True`, returning `(True, stdout)` on exit code 0 and catching
`CalledProcessError` (any non-zero exit) as `(False, stderr)`.  A
`FileNotFoundError` (binary unavailable) is NOT caught and propagates as an
exception, modelled by `Except.error ()`.  The command list is recorded but
the outcome is chosen by the environment. -/
def run_ffmpeg (command : List String) (o : ProcOutcome) : Except Unit (Bool × String) :=
  match command, o with
  | _, .exit 0 stdout _ _ => .ok (true, stdout)
  | _, .exit (Nat.succ _) _ stderr _ => .ok (false, stderr)
  | _, .launchFailure => .error ()

/-- Lines 10-21, `VideoProcessor.__init__`: the configured directories. -/
structure VideoProcessor where
  video_chunks_dir : String
  audio_chunks_dir : String
  video_output_dir : String
  audio_output_dir : String
  transcript_output_dir : Option String

/-- Lines 17-21 of `__init__`: the output directories are created if absent. -/
def VideoProcessor.initFS (p : VideoProcessor) (fs : FS) : FS :=
  match p.transcript_output_dir with
  | none => (fs.mkdir p.video_output_dir).mkdir p.audio_output_dir
  | some t => (((fs.mkdir p.video_output_dir).mkdir p.audio_output_dir).mkdir t)

/-- The canonical video chunk filename `video_{i}.webm` inside the video
chunk directory (line 49). -/
def videoChunkPath (p : VideoProcessor) (i : Nat) : String :=
  p.video_chunks_dir ++ ("/video_") ++ toString i ++ (".webm")

/-- The canonical audio chunk filename `audio_{i}.webm` inside the audio
chunk directory (line 55). -/
def audioChunkPath (p : VideoProcessor) (i : Nat) : String :=
  p.audio_chunks_dir ++ ("/audio_") ++ toString i ++ (".webm")

/-- One bounded scan loop of `find_chunk_sequences` (lines 48-57): for `i`
in `range 1000`, keep `(i, path i)` whenever the file exists. -/
def rawChunkScan (fs : FS) (path : Nat → String) : List (Nat × String) :=
  (List.range 1000).filterMap (fun i =>
    if (fs.files (path i)).isSome then some (i, path i) else none)

/-- Lines 42-65, `VideoProcessor.find_chunk_sequences`: scan both chunk
directories over the fixed index bound and sort each result by index
(`list.sort(key=lambda x: x[0])`). -/
def find_chunk_sequences (p : VideoProcessor) (fs : FS) :
    List (Nat × String) × List (Nat × String) :=
  let video_chunks := rawChunkScan fs (videoChunkPath p)
  let audio_chunks := rawChunkScan fs (audioChunkPath p)
  (video_chunks.mergeSort (fun a b => decide (a.1 ≤ b.1)),
   audio_chunks.mergeSort (fun a b => decide (a.1 ≤ b.1)))

/-- Helper for `Path.with_suffix`, working on the reversed character list of
a path: drop the characters of the final extension together with its dot.
Returns `none` when the final component has no dot. -/
def splitExtRev : List Char → Option (List Char)
  | [] => none
  | c :: rest => if c = '.' then some rest else if c = '/' then none else splitExtRev rest

/-- Python `Path.with_suffix(suffix)` (line 75): replace the extension of
the final path component by `suffix`, or append `suffix` when there is no
extension. -/
def withSuffix (p : String) (suffix : String) : String :=
  match splitExtRev p.data.reverse with
  | some stem => ⟨stem.reverse ++ suffix.data⟩
  | none => ⟨p.data ++ suffix.data⟩

/-- The ffmpeg repair command of lines 87-95: regenerate presentation
timestamps over the binary concatenation and rewrite it into a valid
container without re-encoding. -/
def fixCommand (temp output : String) : List String :=
  [("ffmpeg"), ("-y"), ("-fflags"), ("+genpts"), ("-i"), temp,
   ("-c"), ("copy"), ("-avoid_negative_ts"), ("make_zero"), output]

/-- Lines 78-82 of `concatenate_raw_chunks`: with the intermediate file
`temp` already opened for writing (truncated), append every chunk's raw
bytes in list order.  A chunk whose file does not exist raises on `open`,
modelled by the `false` flag; the bytes written so far remain in `temp`. -/
def writeLoop (fs : FS) (temp : String) : List (Nat × String) → FS × Bool
  | [] => (fs, true)
  | (_, chunk_path) :: rest =>
    match fs.files chunk_path with
    | none => (fs, false)
    | some bytes =>
      writeLoop (fs.write temp ((fs.files temp).getD [] ++ bytes)) temp rest

/-- Lines 67-112, `VideoProcessor.concatenate_raw_chunks`: empty input
fails immediately; otherwise binary-concatenate all chunks into
`output_path.with_suffix('.temp.webm')`, run the ffmpeg repair command into
`output_path`, delete the temporary file unconditionally, and return the
repair's success flag.  The surrounding `except Exception` converts every
exception (a missing chunk file, or even a `FileNotFoundError` escaping
`run_ffmpeg`) into a `False` return after deleting the temporary file, so
this function is total and never propagates an exception. -/
def concatenate_raw_chunks (o : ProcOutcome) (fs : FS) (chunks : List (Nat × String))
    (output_path : String) : Bool × FS :=
  match chunks with
  | [] => (false, fs)
  | _ :: _ =>
    let temp_concat_path := withSuffix output_path (".temp.webm")
    match writeLoop (fs.write temp_concat_path []) temp_concat_path chunks with
    | (fs1, false) => (false, fs1.remove temp_concat_path)
    | (fs1, true) =>
      match run_ffmpeg (fixCommand temp_concat_path output_path) o with
      | .error _ => (false, fs1.remove temp_concat_path)
      | .ok (success, _) =>
        if success then (true, (fs1.write output_path o.written).remove temp_concat_path)
        else (false, fs1.remove temp_concat_path)

/-- The WAV transcode command of lines 198-205 (signed 16-bit PCM, 44.1 kHz). -/
def wavCommand (input output : String) : List String :=
  [("ffmpeg"), ("-y"), ("-i"), input, ("-acodec"), ("pcm_s16le"), ("-ar"), ("44100"), output]

/-- Lines 116-141 of `mux_video_audio_with_captions`: the external command,
built from the available inputs.  The subtitle input and its caption-track
options are appended only when a subtitle path is given AND the file exists. -/
def mux_command (fs : FS) (video_path : String) (audio_path : Option String)
    (srt_path : Option String) (output_path : String) : List String :=
  [("ffmpeg"), ("-y")]
  ++ [("-i"), video_path]
  ++ (match audio_path with
      | some a => [("-i"), a]
      | none => [])
  ++ [("-c:v"), ("libx264"), ("-preset"), ("medium"), ("-crf"), ("23")]
  ++ (match audio_path with
      | some _ => [("-c:a"), ("aac"), ("-b:a"), ("128k")]
      | none => [])
  ++ (match srt_path with
      | some s =>
        if (fs.files s).isSome then
          [("-i"), s, ("-c:s"), ("mov_text"), ("-metadata:s:s:0"), ("language=eng")]
        else []
      | none => [])
  ++ [("-shortest"), ("-avoid_negative_ts"), ("make_zero")]
  ++ [output_path]

/-- Lines 114-148, `VideoProcessor.mux_video_audio_with_captions`: build the
command, run it through `run_ffmpeg` (no surrounding handler, so a launch
failure propagates), write the final container on success, return the flag. -/
def mux_video_audio_with_captions (o : ProcOutcome) (fs : FS) (video_path : String)
    (audio_path : Option String) (srt_path : Option String) (output_path : String) :
    Except Unit (Bool × FS) :=
  match run_ffmpeg (mux_command fs video_path audio_path srt_path output_path) o with
  | .error e => .error e
  | .ok (true, _) => .ok (true, fs.write output_path o.written)
  | .ok (false, _) => .ok (false, fs)

/-- The environment of one `process_chunks` run: the filesystem at entry,
the outcome of each of the four possible external invocations, the fresh
temporary directory name chosen by `tempfile.TemporaryDirectory`, and the
run's `datetime.now().strftime("%Y-%m-%d_%H-%M-%S")` second-granularity
timestamp sample. -/
structure World where
  fs : FS
  videoRepair : ProcOutcome
  audioRepair : ProcOutcome
  wavTranscode : ProcOutcome
  muxRun : ProcOutcome
  tempDir : String
  timestamp : String

/-- The final muxed video filename (line 189). -/
def finalVideoPath (p : VideoProcessor) (w : World) : String :=
  p.video_output_dir ++ ("/output_") ++ w.timestamp ++ (".mp4")

/-- The standalone audio filename (line 190). -/
def finalAudioPath (p : VideoProcessor) (w : World) : String :=
  p.audio_output_dir ++ ("/audio_") ++ w.timestamp ++ (".wav")

/-- Step 2 of `process_chunks` (lines 177-185): concatenate the audio
chunks when any exist; on failure, log and degrade to "no audio"
(`audio_concat_path = None`) instead of aborting. -/
def audioStep (w : World) (fs1 : FS) (audio_chunks : List (Nat × String)) :
    Option String × FS :=
  if audio_chunks.isEmpty then (none, fs1)
  else
    match concatenate_raw_chunks w.audioRepair fs1 audio_chunks
        (w.tempDir ++ ("/audio_concatenated.webm")) with
    | (true, fs2) => (some (w.tempDir ++ ("/audio_concatenated.webm")), fs2)
    | (false, fs2) => (none, fs2)

/-- Step 4 of `process_chunks` (lines 192-218): when a repaired audio
intermediate is present on disk, transcode it to the standalone WAV
artifact.  The surrounding `try/except` swallows every failure - including
a launch failure - leaving `saved_audio_path = None`. -/
def wavStep (p : VideoProcessor) (w : World) (fs2 : FS)
    (audio_concat_path : Option String) : Option String × FS :=
  match audio_concat_path with
  | none => (none, fs2)
  | some ap =>
    if (fs2.files ap).isSome then
      match run_ffmpeg (wavCommand ap (finalAudioPath p w)) w.wavTranscode with
      | .error _ => (none, fs2)
      | .ok (true, _) =>
        (some (finalAudioPath p w), fs2.write (finalAudioPath p w) w.wavTranscode.written)
      | .ok (false, _) => (none, fs2)
    else (none, fs2)

/-- Steps of `process_chunks` after the scan and before the final mux
(lines 157-218): `.inl` is an early return (no video chunks, or video
concatenation failed - both yield `(None, None)`, the latter after the
temporary workspace is torn down); `.inr (fs3, audio_concat_path,
saved_audio_path)` is the state reaching step 5. -/
def afterConcat (p : VideoProcessor) (w : World)
    (video_chunks audio_chunks : List (Nat × String)) :
    ((Except Unit (Option String × Option String)) × FS) ⊕
      (FS × Option String × Option String) :=
  if video_chunks.isEmpty then .inl (.ok (none, none), w.fs)
  else
    match concatenate_raw_chunks w.videoRepair (w.fs.mkdir w.tempDir) video_chunks
        (w.tempDir ++ ("/video_concatenated.webm")) with
    | (false, fs1) => .inl (.ok (none, none), fs1.removeTree w.tempDir)
    | (true, fs1) =>
      match audioStep w fs1 audio_chunks with
      | (audio_concat_path, fs2) =>
        match wavStep p w fs2 audio_concat_path with
        | (saved_audio_path, fs3) => .inr (fs3, audio_concat_path, saved_audio_path)

/-- The body of `process_chunks` once the chunk lists are known (lines
157-231): run the pre-mux steps, then step 5.  A mux launch failure
propagates out as an exception; the `with tempfile.TemporaryDirectory()`
block still tears the workspace down on that path. -/
def process_with_chunks (p : VideoProcessor) (w : World) (srt_path : Option String)
    (video_chunks audio_chunks : List (Nat × String)) :
    (Except Unit (Option String × Option String)) × FS :=
  match afterConcat p w video_chunks audio_chunks with
  | .inl r => r
  | .inr (fs3, audio_concat_path, saved_audio_path) =>
    match mux_video_audio_with_captions w.muxRun fs3 (w.tempDir ++ ("/video_concatenated.webm"))
        audio_concat_path srt_path (finalVideoPath p w) with
    | .error e => (.error e, fs3.removeTree w.tempDir)
    | .ok (true, fs4) => (.ok (some (finalVideoPath p w), saved_audio_path), fs4.removeTree w.tempDir)
    | .ok (false, fs4) => (.ok (none, saved_audio_path), fs4.removeTree w.tempDir)

/-- Lines 150-231, `VideoProcessor.process_chunks`: scan, then process. -/
def process_chunks (p : VideoProcessor) (w : World) (srt_path : Option String) :
    (Except Unit (Option String × Option String)) × FS :=
  match find_chunk_sequences p w.fs with
  | (video_chunks, audio_chunks) => process_with_chunks p w srt_path video_chunks audio_chunks

/-! Concrete inputs used by the witness theorems. -/

/-- A filesystem with no files and no directories. -/
def emptyFS : FS :=
  { files := fun _ => none, dirs := fun _ => false }

/-- A processor with simple concrete directories. -/
def P0 : VideoProcessor :=
  { video_chunks_dir := "vc", audio_chunks_dir := "ac",
    video_output_dir := "vo", audio_output_dir := "ao",
    transcript_output_dir := none }

/-- One video chunk at index 0 and one audio chunk at index 0. -/
def FS1 : FS :=
  { files := fun q =>
      if q = ("vc/video_0.webm") then some [1, 2]
      else if q = ("ac/audio_0.webm") then some [3] else none,
    dirs := fun _ => false }

/-- A world with no chunks on disk at all. -/
def W0 : World :=
  { fs := emptyFS, videoRepair := .exit 0 ("") ("") [], audioRepair := .exit 0 ("") ("") [],
    wavTranscode := .exit 0 ("") ("") [], muxRun := .exit 0 ("") ("") [],
    tempDir := "tmp", timestamp := "TS" }

/-- A world over `FS1` whose audio repair and final mux both exit non-zero. -/
def W1 : World :=
  { fs := FS1, videoRepair := .exit 0 ("") ("") [9], audioRepair := .exit 1 ("") ("boom") [],
    wavTranscode := .exit 0 ("") ("") [8], muxRun := .exit 1 ("") ("muxerr") [],
    tempDir := "tmp", timestamp := "TS" }

/-! Basic helper lemmas. -/

theorem FS_ext {a b : FS} (hf : ∀ q, a.files q = b.files q) (hd : ∀ q, a.dirs q = b.dirs q) :
    a = b := by
  cases a
  cases b
  simp only [FS.mk.injEq]
  exact ⟨funext hf, funext hd⟩

theorem string_data_inj {a b : String} (h : a.data = b.data) : a = b :=
  congrArg String.mk h

theorem string_append_cancel {t a b : String} (h : t ++ a = t ++ b) : a = b :=
  string_data_inj (List.append_cancel_left (congrArg String.data h))

theorem string_append_ne {t a b : String} (h : a ≠ b) : t ++ a ≠ t ++ b :=
  fun hh => h (string_append_cancel hh)

theorem isPrefixOf_append_left (a b c : List Char) :
    (a ++ b).isPrefixOf (a ++ c) = b.isPrefixOf c := by
  induction a with
  | nil => rfl
  | cons x xs ih => simpa [List.isPrefixOf] using ih

theorem isPrefixOf_self_append (a l : List Char) : a.isPrefixOf (a ++ l) = true := by
  have h := isPrefixOf_append_left a [] l
  simp only [List.append_nil] at h
  rw [h]
  simp [List.isPrefixOf]

theorem underDir_append (t r : String) (l : List Char) (hr : r.data = '/' :: l) :
    underDir t (t ++ r) = true := by
  show (t.data ++ ['/']).isPrefixOf (t ++ r).data = true
  have h1 : (t ++ r).data = (t.data ++ ['/']) ++ l := by
    show t.data ++ r.data = (t.data ++ ['/']) ++ l
    rw [hr, List.append_assoc]
    rfl
  rw [h1, isPrefixOf_self_append]

theorem splitExtRev_mbew (r : List Char) : splitExtRev (("mbew.").data ++ r) = some r := by
  simp [splitExtRev]

theorem withSuffix_concat (t r s out : String)
    (h1 : r.data.reverse = ("mbew.").data ++ s.data.reverse)
    (h2 : out.data = s.data ++ (".temp.webm").data) :
    withSuffix (t ++ r) (".temp.webm") = t ++ out := by
  unfold withSuffix
  have hrev : (t ++ r).data.reverse = ("mbew.").data ++ (s.data.reverse ++ t.data.reverse) := by
    show (t.data ++ r.data).reverse = _
    rw [List.reverse_append, h1, List.append_assoc]
  rw [hrev, splitExtRev_mbew]
  apply string_data_inj
  show (s.data.reverse ++ t.data.reverse).reverse ++ (".temp.webm").data
      = (t ++ out).data
  rw [List.reverse_append, List.reverse_reverse, List.reverse_reverse]
  show t.data ++ s.data ++ (".temp.webm").data = t.data ++ out.data
  rw [h2, List.append_assoc]

theorem withSuffix_video (t : String) :
    withSuffix (t ++ ("/video_concatenated.webm")) (".temp.webm")
      = t ++ ("/video_concatenated.temp.webm") := by
  apply withSuffix_concat t _ ("/video_concatenated")
  · decide
  · decide

theorem withSuffix_audio (t : String) :
    withSuffix (t ++ ("/audio_concatenated.webm")) (".temp.webm")
      = t ++ ("/audio_concatenated.temp.webm") := by
  apply withSuffix_concat t _ ("/audio_concatenated")
  · decide
  · decide

/-! `run_ffmpeg` evaluation lemmas. -/

theorem run_ffmpeg_zero (cmd : List String) (s e : String) (b : List Nat) :
    run_ffmpeg cmd (.exit 0 s e b) = .ok (true, s) := rfl

theorem run_ffmpeg_succ (cmd : List String) (c : Nat) (s e : String) (b : List Nat) :
    run_ffmpeg cmd (.exit (Nat.succ c) s e b) = .ok (false, e) := rfl

theorem run_ffmpeg_launch (cmd : List String) :
    run_ffmpeg cmd ProcOutcome.launchFailure = .error () := rfl

/-! `writeLoop` characterization. -/

theorem writeLoop_files_other (temp : String) (chunks : List (Nat × String)) :
    ∀ (fs : FS) (q : String), q ≠ temp →
      (writeLoop fs temp chunks).1.files q = fs.files q := by
  induction chunks with
  | nil => intro fs q h; rfl
  | cons c rest ih =>
    intro fs q h
    obtain ⟨i, cp⟩ := c
    show (match fs.files cp with
      | none => (fs, false)
      | some bytes =>
        writeLoop (fs.write temp ((fs.files temp).getD [] ++ bytes)) temp rest).1.files q
      = fs.files q
    cases hc : fs.files cp with
    | none => rfl
    | some b =>
      rw [ih _ q h]
      simp [FS.write, h]

theorem writeLoop_dirs (temp : String) (chunks : List (Nat × String)) :
    ∀ (fs : FS), (writeLoop fs temp chunks).1.dirs = fs.dirs := by
  induction chunks with
  | nil => intro fs; rfl
  | cons c rest ih =>
    intro fs
    obtain ⟨i, cp⟩ := c
    show (match fs.files cp with
      | none => (fs, false)
      | some bytes =>
        writeLoop (fs.write temp ((fs.files temp).getD [] ++ bytes)) temp rest).1.dirs
      = fs.dirs
    cases hc : fs.files cp with
    | none => rfl
    | some b =>
      rw [ih]
      rfl

theorem writeLoop_spec (temp : String) :
    ∀ (chunks : List (Nat × String)) (fs : FS) (acc : List Nat),
      (∀ c ∈ chunks, c.2 ≠ temp ∧ (fs.files c.2).isSome = true) →
      fs.files temp = some acc →
      (writeLoop fs temp chunks).2 = true ∧
      (writeLoop fs temp chunks).1.files temp
        = some (acc ++ (chunks.map (fun c => (fs.files c.2).getD [])).flatten) := by
  intro chunks
  induction chunks with
  | nil =>
    intro fs acc h hacc
    refine ⟨rfl, ?_⟩
    simpa using hacc
  | cons c rest ih =>
    intro fs acc h hacc
    obtain ⟨i, cp⟩ := c
    obtain ⟨hcp, hsome⟩ := h (i, cp) (List.mem_cons_self _ _)
    obtain ⟨b, hb⟩ := Option.isSome_iff_exists.mp hsome
    have hstep : writeLoop fs temp ((i, cp) :: rest)
        = writeLoop (fs.write temp (acc ++ b)) temp rest := by
      show (match fs.files cp with
        | none => (fs, false)
        | some bytes =>
          writeLoop (fs.write temp ((fs.files temp).getD [] ++ bytes)) temp rest)
        = writeLoop (fs.write temp (acc ++ b)) temp rest
      rw [hb, hacc]
      rfl
    rw [hstep]
    have hrest : ∀ c ∈ rest, c.2 ≠ temp ∧
        ((fs.write temp (acc ++ b)).files c.2).isSome = true := by
      intro c hc
      obtain ⟨h1, h2⟩ := h c (List.mem_cons_of_mem _ hc)
      refine ⟨h1, ?_⟩
      show ((if c.2 = temp then some (acc ++ b) else fs.files c.2)).isSome = true
      rw [if_neg h1]
      exact h2
    have htmp : (fs.write temp (acc ++ b)).files temp = some (acc ++ b) := by
      show (if temp = temp then some (acc ++ b) else fs.files temp) = some (acc ++ b)
      simp
    obtain ⟨hok, hval⟩ := ih (fs.write temp (acc ++ b)) (acc ++ b) hrest htmp
    refine ⟨hok, ?_⟩
    rw [hval]
    have hmap : rest.map (fun c => (((fs.write temp (acc ++ b))).files c.2).getD [])
        = rest.map (fun c => (fs.files c.2).getD []) := by
      apply List.map_congr_left
      intro c hc
      obtain ⟨h1, _⟩ := h c (List.mem_cons_of_mem _ hc)
      show ((if c.2 = temp then some (acc ++ b) else fs.files c.2)).getD [] = _
      rw [if_neg h1]
    rw [hmap]
    simp [hb, List.append_assoc]

theorem writeLoop_false_of_missing (temp : String) :
    ∀ (chunks : List (Nat × String)) (fs : FS),
      (∀ c ∈ chunks, c.2 ≠ temp) →
      (∃ c ∈ chunks, fs.files c.2 = none) →
      (writeLoop fs temp chunks).2 = false := by
  intro chunks
  induction chunks with
  | nil => intro fs h hex; simp at hex
  | cons c rest ih =>
    intro fs h hex
    obtain ⟨i, cp⟩ := c
    show (match fs.files cp with
      | none => (fs, false)
      | some bytes =>
        writeLoop (fs.write temp ((fs.files temp).getD [] ++ bytes)) temp rest).2 = false
    cases hc : fs.files cp with
    | none => rfl
    | some b =>
      apply ih
      · intro d hd
        exact h d (List.mem_cons_of_mem _ hd)
      · obtain ⟨d, hd, hdn⟩ := hex
        rcases List.mem_cons.mp hd with heq | hmem
        · rw [heq] at hdn
          simp only at hdn
          rw [hdn] at hc
          cases hc
        · refine ⟨d, hmem, ?_⟩
          have hdt : d.2 ≠ temp := h d (List.mem_cons_of_mem _ hmem)
          show (if d.2 = temp then some _ else fs.files d.2) = none
          rw [if_neg hdt]
          exact hdn

/-! `concatenate_raw_chunks` characterization. -/

theorem concatenate_empty (o : ProcOutcome) (fs : FS) (out : String) :
    concatenate_raw_chunks o fs [] out = (false, fs) := rfl

theorem remove_congr_outside {a b : FS} (t : String)
    (hf : ∀ q, q ≠ t → a.files q = b.files q) (hd : a.dirs = b.dirs) :
    a.remove t = b.remove t := by
  apply FS_ext
  · intro q
    show (if q = t then none else a.files q) = (if q = t then none else b.files q)
    by_cases hq : q = t
    · simp [hq]
    · simp [hq, hf q hq]
  · intro q
    show a.dirs q = b.dirs q
    rw [hd]

theorem concatenate_cons (o : ProcOutcome) (fs : FS) (c : Nat × String)
    (rest : List (Nat × String)) (out : String) :
    concatenate_raw_chunks o fs (c :: rest) out
      = (match writeLoop (fs.write (withSuffix out (".temp.webm")) [])
            (withSuffix out (".temp.webm")) (c :: rest) with
        | (fs1, false) => (false, fs1.remove (withSuffix out (".temp.webm")))
        | (fs1, true) =>
          match run_ffmpeg (fixCommand (withSuffix out (".temp.webm")) out) o with
          | .error _ => (false, fs1.remove (withSuffix out (".temp.webm")))
          | .ok (success, _) =>
            if success then
              (true, (fs1.write out o.written).remove (withSuffix out (".temp.webm")))
            else (false, fs1.remove (withSuffix out (".temp.webm")))) := rfl

theorem concatenate_flag_launch (fs : FS) (chunks : List (Nat × String)) (out : String) :
    (concatenate_raw_chunks ProcOutcome.launchFailure fs chunks out).1 = false := by
  cases chunks with
  | nil => rfl
  | cons c rest =>
    rw [concatenate_cons]
    rcases hw : writeLoop (fs.write (withSuffix out (".temp.webm")) [])
        (withSuffix out (".temp.webm")) (c :: rest) with ⟨fs1, ok⟩
    cases ok
    · rfl
    · rw [run_ffmpeg_launch]

theorem concatenate_flag_exit_succ (k : Nat) (s e : String) (b : List Nat) (fs : FS)
    (chunks : List (Nat × String)) (out : String) :
    (concatenate_raw_chunks (ProcOutcome.exit (Nat.succ k) s e b) fs chunks out).1 = false := by
  cases chunks with
  | nil => rfl
  | cons c rest =>
    rw [concatenate_cons]
    rcases hw : writeLoop (fs.write (withSuffix out (".temp.webm")) [])
        (withSuffix out (".temp.webm")) (c :: rest) with ⟨fs1, ok⟩
    cases ok
    · rfl
    · rw [run_ffmpeg_succ]
      rfl

theorem concatenate_fs_of_false (o : ProcOutcome) (fs : FS) (chunks : List (Nat × String))
    (out : String) (hne : chunks ≠ [])
    (h : (concatenate_raw_chunks o fs chunks out).1 = false) :
    (concatenate_raw_chunks o fs chunks out).2
      = fs.remove (withSuffix out (".temp.webm")) := by
  cases chunks with
  | nil => exact absurd rfl hne
  | cons c rest =>
    rw [concatenate_cons] at h ⊢
    rcases hw : writeLoop (fs.write (withSuffix out (".temp.webm")) [])
        (withSuffix out (".temp.webm")) (c :: rest) with ⟨fs1, ok⟩
    rw [hw] at h
    have hfq : ∀ q, q ≠ withSuffix out (".temp.webm") → fs1.files q = fs.files q := by
      intro q hq
      have h1 := writeLoop_files_other (withSuffix out (".temp.webm")) (c :: rest)
        (fs.write (withSuffix out (".temp.webm")) []) q hq
      rw [hw] at h1
      rw [h1]
      show (if q = withSuffix out (".temp.webm") then some [] else fs.files q) = fs.files q
      rw [if_neg hq]
    have hdq : fs1.dirs = fs.dirs := by
      have h1 := writeLoop_dirs (withSuffix out (".temp.webm")) (c :: rest)
        (fs.write (withSuffix out (".temp.webm")) [])
      rw [hw] at h1
      exact h1
    cases ok
    · exact remove_congr_outside _ hfq hdq
    · rcases o with ⟨code, so, se, bo⟩ | _
      · rcases code with _ | k
        · rw [run_ffmpeg_zero] at h
          simp at h
        · rw [run_ffmpeg_succ]
          exact remove_congr_outside _ hfq hdq
      · rw [run_ffmpeg_launch]
        exact remove_congr_outside _ hfq hdq

theorem concatenate_fs_of_true (o : ProcOutcome) (fs : FS) (chunks : List (Nat × String))
    (out : String) (h : (concatenate_raw_chunks o fs chunks out).1 = true) :
    (concatenate_raw_chunks o fs chunks out).2
      = (fs.write out o.written).remove (withSuffix out (".temp.webm")) := by
  cases chunks with
  | nil => simp [concatenate_empty] at h
  | cons c rest =>
    rw [concatenate_cons] at h ⊢
    rcases hw : writeLoop (fs.write (withSuffix out (".temp.webm")) [])
        (withSuffix out (".temp.webm")) (c :: rest) with ⟨fs1, ok⟩
    rw [hw] at h
    have hfq : ∀ q, q ≠ withSuffix out (".temp.webm") → fs1.files q = fs.files q := by
      intro q hq
      have h1 := writeLoop_files_other (withSuffix out (".temp.webm")) (c :: rest)
        (fs.write (withSuffix out (".temp.webm")) []) q hq
      rw [hw] at h1
      rw [h1]
      show (if q = withSuffix out (".temp.webm") then some [] else fs.files q) = fs.files q
      rw [if_neg hq]
    have hdq : fs1.dirs = fs.dirs := by
      have h1 := writeLoop_dirs (withSuffix out (".temp.webm")) (c :: rest)
        (fs.write (withSuffix out (".temp.webm")) [])
      rw [hw] at h1
      exact h1
    cases ok
    · simp at h
    · rcases o with ⟨code, so, se, bo⟩ | _
      · rcases code with _ | k
        · rw [run_ffmpeg_zero]
          apply remove_congr_outside
          · intro q hq
            show (if q = out then some bo else fs1.files q)
              = (if q = out then some bo else fs.files q)
            by_cases hqo : q = out
            · simp [hqo]
            · simp only [if_neg hqo]
              exact hfq q hq
          · exact hdq
        · rw [run_ffmpeg_succ] at h
          simp at h
      · rw [run_ffmpeg_launch] at h
        simp at h

theorem concatenate_true (s e : String) (b : List Nat) (fs : FS)
    (chunks : List (Nat × String)) (out : String) (hne : chunks ≠ [])
    (hch : ∀ c ∈ chunks, c.2 ≠ withSuffix out (".temp.webm") ∧ (fs.files c.2).isSome = true) :
    (concatenate_raw_chunks (ProcOutcome.exit 0 s e b) fs chunks out).1 = true := by
  cases chunks with
  | nil => exact absurd rfl hne
  | cons c rest =>
    rw [concatenate_cons]
    have hspec := writeLoop_spec (withSuffix out (".temp.webm")) (c :: rest)
        (fs.write (withSuffix out (".temp.webm")) []) []
        (by
          intro d hd
          obtain ⟨h1, h2⟩ := hch d hd
          refine ⟨h1, ?_⟩
          show ((if d.2 = withSuffix out (".temp.webm") then some []
              else fs.files d.2)).isSome = true
          rw [if_neg h1]
          exact h2)
        (by
          show (if withSuffix out (".temp.webm") = withSuffix out (".temp.webm")
              then some [] else _) = some []
          simp)
    rcases hw : writeLoop (fs.write (withSuffix out (".temp.webm")) [])
        (withSuffix out (".temp.webm")) (c :: rest) with ⟨fs1, ok⟩
    rw [hw] at hspec
    obtain ⟨hok, _⟩ := hspec
    have hok2 : ok = true := hok
    subst hok2
    rw [run_ffmpeg_zero]
    rfl

/-! `find_chunk_sequences` characterization. -/

theorem rawChunkScan_pairwise (fs : FS) (path : Nat → String) :
    (rawChunkScan fs path).Pairwise (fun a b => a.1 < b.1) := by
  unfold rawChunkScan
  rw [List.pairwise_filterMap]
  refine List.Pairwise.imp ?_ (List.pairwise_lt_range 1000)
  intro i j hij x hx y hy
  have hxi : x.1 = i := by
    by_cases hc : (fs.files (path i)).isSome
    · rw [if_pos hc] at hx
      simp only [Option.mem_def, Option.some.injEq] at hx
      rw [← hx]
    · rw [if_neg hc] at hx
      simp at hx
  have hyj : y.1 = j := by
    by_cases hc : (fs.files (path j)).isSome
    · rw [if_pos hc] at hy
      simp only [Option.mem_def, Option.some.injEq] at hy
      rw [← hy]
    · rw [if_neg hc] at hy
      simp at hy
  rw [hxi, hyj]
  exact hij

theorem rawChunkScan_mem (fs : FS) (path : Nat → String) (i : Nat) (q : String) :
    (i, q) ∈ rawChunkScan fs path ↔
      i < 1000 ∧ q = path i ∧ (fs.files (path i)).isSome = true := by
  unfold rawChunkScan
  rw [List.mem_filterMap]
  constructor
  · rintro ⟨a, ha, hfa⟩
    by_cases hc : (fs.files (path a)).isSome
    · rw [if_pos hc] at hfa
      obtain ⟨h1, h2⟩ := Prod.mk.injEq .. ▸ (Option.some.injEq .. ▸ hfa :
        (a, path a) = (i, q))
      refine ⟨?_, ?_, ?_⟩
      · rw [← h1]
        exact List.mem_range.mp ha
      · rw [← h2, h1]
      · rw [← h1]
        exact hc
    · rw [if_neg hc] at hfa
      cases hfa
  · rintro ⟨h1, h2, h3⟩
    refine ⟨i, List.mem_range.mpr h1, ?_⟩
    rw [if_pos h3, h2]

theorem rawChunkScan_eq_nil (fs : FS) (path : Nat → String)
    (h : ∀ i, i < 1000 → fs.files (path i) = none) : rawChunkScan fs path = [] := by
  unfold rawChunkScan
  rw [List.filterMap_eq_nil_iff]
  intro i hi
  rw [h i (List.mem_range.mp hi)]
  rfl

theorem find_chunk_sequences_eq (p : VideoProcessor) (fs : FS) :
    find_chunk_sequences p fs
      = (rawChunkScan fs (videoChunkPath p), rawChunkScan fs (audioChunkPath p)) := by
  unfold find_chunk_sequences
  have hs : ∀ path : Nat → String,
      (rawChunkScan fs path).mergeSort (fun a b => decide (a.1 ≤ b.1))
        = rawChunkScan fs path := by
    intro path
    apply List.mergeSort_of_sorted
    refine (rawChunkScan_pairwise fs path).imp ?_
    intro a b hab
    simpa using Nat.le_of_lt hab
  show ((rawChunkScan fs (videoChunkPath p)).mergeSort fun a b => decide (a.1 ≤ b.1),
    (rawChunkScan fs (audioChunkPath p)).mergeSort fun a b => decide (a.1 ≤ b.1)) = _
  rw [hs, hs]

/-- C1: for every filesystem state, `find_chunk_sequences` returns, for each
stream kind, exactly the pairs `(i, path)` with `i < 1000` whose canonical
file `{kind}_{i}.webm` exists in that kind's directory, in strictly
ascending index order; gaps are skipped without error and a directory with
no chunk files yields an empty sequence. -/
theorem find_chunk_sequences_spec (p : VideoProcessor) (fs : FS) :
    (∀ i q, ((i, q) ∈ (find_chunk_sequences p fs).1 ↔
      i < 1000 ∧ q = videoChunkPath p i ∧ (fs.files q).isSome = true)) ∧
    (∀ i q, ((i, q) ∈ (find_chunk_sequences p fs).2 ↔
      i < 1000 ∧ q = audioChunkPath p i ∧ (fs.files q).isSome = true)) ∧
    (find_chunk_sequences p fs).1.Pairwise (fun a b => a.1 < b.1) ∧
    (find_chunk_sequences p fs).2.Pairwise (fun a b => a.1 < b.1) ∧
    ((∀ i, i < 1000 → fs.files (videoChunkPath p i) = none) →
      (find_chunk_sequences p fs).1 = []) ∧
    ((∀ i, i < 1000 → fs.files (audioChunkPath p i) = none) →
      (find_chunk_sequences p fs).2 = []) := by
  have hv : (find_chunk_sequences p fs).1 = rawChunkScan fs (videoChunkPath p) := by
    rw [find_chunk_sequences_eq]
  have ha : (find_chunk_sequences p fs).2 = rawChunkScan fs (audioChunkPath p) := by
    rw [find_chunk_sequences_eq]
  rw [hv, ha]
  refine ⟨?_, ?_, rawChunkScan_pairwise fs _, rawChunkScan_pairwise fs _,
    fun h => rawChunkScan_eq_nil fs _ h, fun h => rawChunkScan_eq_nil fs _ h⟩
  · intro i q
    rw [rawChunkScan_mem]
    constructor
    · rintro ⟨h1, h2, h3⟩
      subst h2
      exact ⟨h1, rfl, h3⟩
    · rintro ⟨h1, h2, h3⟩
      subst h2
      exact ⟨h1, rfl, h3⟩
  · intro i q
    rw [rawChunkScan_mem]
    constructor
    · rintro ⟨h1, h2, h3⟩
      subst h2
      exact ⟨h1, rfl, h3⟩
    · rintro ⟨h1, h2, h3⟩
      subst h2
      exact ⟨h1, rfl, h3⟩

set_option maxRecDepth 4000 in
/-- Witness for C1 at a concrete input: on a filesystem with no files at
all, the video sequence is empty. -/
theorem find_chunk_sequences_spec_witness :
    (find_chunk_sequences P0 emptyFS).1 = [] :=
  (find_chunk_sequences_spec P0 emptyFS).2.2.2.2.1 (fun _ _ => rfl)

/-- C2 (amended): `run_ffmpeg` reports a non-zero external exit as
`succeeded = false` with the captured stderr text and never raises an
exception for it; an inability to launch the binary is not caught by
`run_ffmpeg` itself and propagates as an exception, which surfaces to the
top-level caller on the mux path, but `concatenate_raw_chunks`'s catch-all
handler converts it into a `succeeded = false` return instead of
surfacing it. -/
theorem run_ffmpeg_error_reporting (cmd : List String) :
    (∀ c s e b, run_ffmpeg cmd (ProcOutcome.exit (Nat.succ c) s e b) = .ok (false, e)) ∧
    (∀ s e b, run_ffmpeg cmd (ProcOutcome.exit 0 s e b) = .ok (true, s)) ∧
    run_ffmpeg cmd ProcOutcome.launchFailure = .error () ∧
    (∀ (fs : FS) v a s out, mux_video_audio_with_captions ProcOutcome.launchFailure
      fs v a s out = .error ()) ∧
    (∀ (fs : FS) chunks out,
      (concatenate_raw_chunks ProcOutcome.launchFailure fs chunks out).1 = false) := by
  refine ⟨fun c s e b => rfl, fun s e b => rfl, rfl, fun fs v a s out => rfl, ?_⟩
  intro fs chunks out
  exact concatenate_flag_launch fs chunks out

/-- C2 counterexample: at a concrete filesystem holding the single chunk
file, `concatenate_raw_chunks` converts a launch failure (the binary could
not be started at all) into a `succeeded = false` return - indistinguishable
from an ordinary failed exit - rather than letting it surface. -/
theorem launch_failure_converted_cex :
    (concatenate_raw_chunks ProcOutcome.launchFailure
      { files := fun q => if q = ("c0.webm") then some [5] else none,
        dirs := fun _ => false }
      [(0, ("c0.webm"))] ("out.webm")).1 = false := by decide

/-- C3: for every non-empty chunk sequence in strictly ascending index
order whose files all exist (and none aliases the intermediate path), the
write phase of `concatenate_raw_chunks` (lines 78-82, `writeLoop` starting
from the freshly truncated intermediate) completes and leaves the raw
intermediate file holding exactly the byte-for-byte concatenation of the
chunk files' contents in sequence order - no bytes modified, reordered,
added, or dropped. -/
theorem raw_intermediate_exact_concat (fs : FS) (chunks : List (Nat × String)) (out : String)
    (_hne : chunks ≠ [])
    (_hasc : chunks.Pairwise (fun a b => a.1 < b.1))
    (hread : ∀ c ∈ chunks, c.2 ≠ withSuffix out (".temp.webm") ∧
      (fs.files c.2).isSome = true) :
    (writeLoop (fs.write (withSuffix out (".temp.webm")) [])
      (withSuffix out (".temp.webm")) chunks).2 = true ∧
    (writeLoop (fs.write (withSuffix out (".temp.webm")) [])
      (withSuffix out (".temp.webm")) chunks).1.files (withSuffix out (".temp.webm"))
      = some ((chunks.map (fun c => (fs.files c.2).getD [])).flatten) := by
  have hspec := writeLoop_spec (withSuffix out (".temp.webm")) chunks
      (fs.write (withSuffix out (".temp.webm")) []) []
      (by
        intro d hd
        obtain ⟨h1, h2⟩ := hread d hd
        refine ⟨h1, ?_⟩
        show ((if d.2 = withSuffix out (".temp.webm") then some [] else fs.files d.2)).isSome
          = true
        rw [if_neg h1]
        exact h2)
      (by
        show (if withSuffix out (".temp.webm") = withSuffix out (".temp.webm")
            then some [] else _) = some []
        simp)
  obtain ⟨h1, h2⟩ := hspec
  refine ⟨h1, ?_⟩
  rw [h2]
  have hmap : chunks.map
      (fun c => (((fs.write (withSuffix out (".temp.webm")) [])).files c.2).getD [])
      = chunks.map (fun c => (fs.files c.2).getD []) := by
    apply List.map_congr_left
    intro d hd
    obtain ⟨hd1, _⟩ := hread d hd
    show ((if d.2 = withSuffix out (".temp.webm") then some [] else fs.files d.2)).getD [] = _
    rw [if_neg hd1]
  rw [hmap]
  simp

/-- Witness for C3: two concrete chunks concatenate to exactly the
concatenation of their bytes. -/
theorem raw_intermediate_exact_concat_witness :
    (writeLoop (FS1.write (withSuffix ("tmp/out.webm") (".temp.webm")) [])
      (withSuffix ("tmp/out.webm") (".temp.webm"))
      [(0, ("vc/video_0.webm")), (1, ("ac/audio_0.webm"))]).1.files
        (withSuffix ("tmp/out.webm") (".temp.webm"))
      = some [1, 2, 3] :=
  (raw_intermediate_exact_concat FS1 [(0, ("vc/video_0.webm")), (1, ("ac/audio_0.webm"))]
    ("tmp/out.webm") (by decide) (by decide) (by decide)).2

/-- C7: the mux command built with a subtitle path that does not exist on
disk is exactly the command built with no subtitle argument at all (so the
external behaviour and output are identical, with no caption track), and
the subtitle input with its caption-track options is included exactly when
the path is provided and the file exists. -/
theorem mux_subtitle_missing_same_command (o : ProcOutcome) (fs : FS) (v : String)
    (a : Option String) (s out : String) (h : fs.files s = none) :
    mux_command fs v a (some s) out = mux_command fs v a none out ∧
    mux_video_audio_with_captions o fs v a (some s) out
      = mux_video_audio_with_captions o fs v a none out ∧
    (∀ s', (fs.files s').isSome = true →
      mux_command fs v a (some s') out
        = [("ffmpeg"), ("-y")] ++ [("-i"), v]
          ++ (match a with
              | some x => [("-i"), x]
              | none => [])
          ++ [("-c:v"), ("libx264"), ("-preset"), ("medium"), ("-crf"), ("23")]
          ++ (match a with
              | some _ => [("-c:a"), ("aac"), ("-b:a"), ("128k")]
              | none => [])
          ++ [("-i"), s', ("-c:s"), ("mov_text"), ("-metadata:s:s:0"), ("language=eng")]
          ++ [("-shortest"), ("-avoid_negative_ts"), ("make_zero")]
          ++ [out]) := by
  have hcmd : mux_command fs v a (some s) out = mux_command fs v a none out := by
    simp [mux_command, h]
  refine ⟨hcmd, ?_, ?_⟩
  · unfold mux_video_audio_with_captions
    rw [hcmd]
  · intro s' hs'
    simp [mux_command, hs']

/-- Witness for C7: with no subtitle file on disk the two commands agree at
a concrete input. -/
theorem mux_subtitle_missing_same_command_witness :
    mux_command emptyFS ("v.webm") none (some ("subs.srt")) ("o.mp4")
      = mux_command emptyFS ("v.webm") none none ("o.mp4") :=
  (mux_subtitle_missing_same_command (ProcOutcome.exit 0 ("") ("") []) emptyFS
    ("v.webm") none ("subs.srt") ("o.mp4") rfl).1

/-- C10: `concatenate_raw_chunks` is total and never propagates an
exception: it always returns a flag, which is `False` on an empty sequence
(leaving the filesystem untouched), `False` whenever the external repair
binary fails to launch (the exception raised inside `run_ffmpeg` is caught
by the catch-all handler), and `False` whenever some chunk file is missing
(the read raises and is caught). -/
theorem concatenate_raw_chunks_total (o : ProcOutcome) (fs : FS)
    (chunks : List (Nat × String)) (out : String) :
    concatenate_raw_chunks o fs [] out = (false, fs) ∧
    (concatenate_raw_chunks ProcOutcome.launchFailure fs chunks out).1 = false ∧
    ((∀ d ∈ chunks, d.2 ≠ withSuffix out (".temp.webm")) →
      (∃ c ∈ chunks, fs.files c.2 = none) →
      (concatenate_raw_chunks o fs chunks out).1 = false) := by
  refine ⟨rfl, concatenate_flag_launch fs chunks out, ?_⟩
  intro hne hex
  cases chunks with
  | nil => rfl
  | cons c rest =>
    rw [concatenate_cons]
    have hfalse := writeLoop_false_of_missing (withSuffix out (".temp.webm")) (c :: rest)
        (fs.write (withSuffix out (".temp.webm")) [])
        (fun d hd => hne d hd)
        (by
          obtain ⟨d, hd, hdn⟩ := hex
          refine ⟨d, hd, ?_⟩
          show (if d.2 = withSuffix out (".temp.webm") then some [] else fs.files d.2) = none
          rw [if_neg (hne d hd)]
          exact hdn)
    rcases hw : writeLoop (fs.write (withSuffix out (".temp.webm")) [])
        (withSuffix out (".temp.webm")) (c :: rest) with ⟨fs1, ok⟩
    rw [hw] at hfalse
    have hok : ok = false := hfalse
    subst hok
    rfl

/-- Witness for C10: a concrete sequence naming a missing chunk file makes
`concatenate_raw_chunks` return `False`. -/
theorem concatenate_raw_chunks_total_witness :
    (concatenate_raw_chunks (ProcOutcome.exit 0 ("") ("") []) emptyFS
      [(0, ("vc/video_0.webm"))] ("tmp/out.webm")).1 = false :=
  (concatenate_raw_chunks_total (ProcOutcome.exit 0 ("") ("") []) emptyFS
    [(0, ("vc/video_0.webm"))] ("tmp/out.webm")).2.2
    (by decide) ⟨(0, ("vc/video_0.webm")), by decide, rfl⟩

/-! Evaluation of the scan at the concrete witness inputs. -/

theorem find_video_eq (p : VideoProcessor) (fs : FS) :
    (find_chunk_sequences p fs).1 = rawChunkScan fs (videoChunkPath p) := by
  rw [find_chunk_sequences_eq]

theorem find_audio_eq (p : VideoProcessor) (fs : FS) :
    (find_chunk_sequences p fs).2 = rawChunkScan fs (audioChunkPath p) := by
  rw [find_chunk_sequences_eq]

theorem find_empty (p : VideoProcessor) :
    find_chunk_sequences p emptyFS = ([], []) := by
  rw [find_chunk_sequences_eq, rawChunkScan_eq_nil emptyFS _ (fun _ _ => rfl),
    rawChunkScan_eq_nil emptyFS _ (fun _ _ => rfl)]

set_option maxRecDepth 4000 in
theorem rawChunkScan_FS1_video :
    rawChunkScan FS1 (videoChunkPath P0) = [(0, ("vc/video_0.webm"))] := by decide

set_option maxRecDepth 4000 in
theorem rawChunkScan_FS1_audio :
    rawChunkScan FS1 (audioChunkPath P0) = [(0, ("ac/audio_0.webm"))] := by decide

theorem find_FS1 : find_chunk_sequences P0 FS1
    = ([(0, ("vc/video_0.webm"))], [(0, ("ac/audio_0.webm"))]) := by
  rw [find_chunk_sequences_eq, rawChunkScan_FS1_video, rawChunkScan_FS1_audio]

/-- C4: if the scan finds no video chunks, `process_chunks` returns with
both outcome fields absent and performs no further work at all - the
filesystem (including directories) is returned untouched, so no
concatenation, transcoding, or muxing has happened. -/
theorem no_video_chunks_aborts (p : VideoProcessor) (w : World) (srt : Option String)
    (h : (find_chunk_sequences p w.fs).1 = []) :
    process_chunks p w srt = (.ok (none, none), w.fs) := by
  unfold process_chunks
  rcases hf : find_chunk_sequences p w.fs with ⟨v, a⟩
  rw [hf] at h
  have hv : v = [] := h
  subst hv
  rfl

/-- Witness for C4: with no chunk files on disk, the run returns
`(None, None)` and the filesystem is unchanged. -/
theorem no_video_chunks_aborts_witness :
    process_chunks P0 W0 none = (.ok (none, none), W0.fs) :=
  no_video_chunks_aborts P0 W0 none (by rw [show W0.fs = emptyFS from rfl, find_empty])

/-! Evaluation lemmas for the orchestrator stages. -/

theorem mkdir_dirs_le (fs : FS) (d q : String) (h : fs.dirs q = true) :
    (fs.mkdir d).dirs q = true := by
  show (if q = d then true else fs.dirs q) = true
  by_cases hq : q = d
  · rw [if_pos hq]
  · rw [if_neg hq]
    exact h

theorem mkdir_dirs_self (fs : FS) (d : String) : (fs.mkdir d).dirs d = true := by
  show (if d = d then true else fs.dirs d) = true
  rw [if_pos rfl]

theorem initFS_dirs (p : VideoProcessor) (fs : FS) :
    (p.initFS fs).dirs p.video_output_dir = true ∧
    (p.initFS fs).dirs p.audio_output_dir = true := by
  unfold VideoProcessor.initFS
  rcases ht : p.transcript_output_dir with _ | t
  · exact ⟨mkdir_dirs_le _ _ _ (mkdir_dirs_self _ _), mkdir_dirs_self _ _⟩
  · exact ⟨mkdir_dirs_le _ _ _ (mkdir_dirs_le _ _ _ (mkdir_dirs_self _ _)),
      mkdir_dirs_le _ _ _ (mkdir_dirs_self _ _)⟩

theorem mux_exit_zero (s e : String) (b : List Nat) (fs : FS) (v : String)
    (a srt : Option String) (out : String) :
    mux_video_audio_with_captions (ProcOutcome.exit 0 s e b) fs v a srt out
      = .ok (true, fs.write out b) := rfl

theorem mux_exit_succ (k : Nat) (s e : String) (b : List Nat) (fs : FS) (v : String)
    (a srt : Option String) (out : String) :
    mux_video_audio_with_captions (ProcOutcome.exit (Nat.succ k) s e b) fs v a srt out
      = .ok (false, fs) := rfl

theorem mux_launch (fs : FS) (v : String) (a srt : Option String) (out : String) :
    mux_video_audio_with_captions ProcOutcome.launchFailure fs v a srt out = .error () := rfl

theorem afterConcat_mux_invariant (p : VideoProcessor) (w : World) (m : ProcOutcome)
    (v a : List (Nat × String)) :
    afterConcat p { w with muxRun := m } v a = afterConcat p w v a := rfl

theorem process_chunks_eq (p : VideoProcessor) (w : World) (srt : Option String)
    (vc ac : List (Nat × String)) (hf : find_chunk_sequences p w.fs = (vc, ac)) :
    process_chunks p w srt = process_with_chunks p w srt vc ac := by
  unfold process_chunks
  rw [hf]

theorem wavStep_some (p : VideoProcessor) (w : World) (fs2 : FS) (ap : String) :
    wavStep p w fs2 (some ap)
      = if (fs2.files ap).isSome = true then
          match run_ffmpeg (wavCommand ap (finalAudioPath p w)) w.wavTranscode with
          | .error _ => (none, fs2)
          | .ok (true, _) =>
            (some (finalAudioPath p w), fs2.write (finalAudioPath p w) w.wavTranscode.written)
          | .ok (false, _) => (none, fs2)
        else (none, fs2) := rfl

theorem wavStep_saved (p : VideoProcessor) (w : World) (fs2 : FS) (acp : Option String) :
    (wavStep p w fs2 acp).1 = none ∨ (wavStep p w fs2 acp).1 = some (finalAudioPath p w) := by
  rcases acp with _ | ap
  · exact .inl rfl
  · rw [wavStep_some]
    by_cases hex : (fs2.files ap).isSome = true
    · rw [if_pos hex]
      rcases hwt : w.wavTranscode with ⟨code, s, e, b⟩ | _
      · rcases code with _ | k
        · rw [run_ffmpeg_zero]
          exact .inr rfl
        · rw [run_ffmpeg_succ]
          exact .inl rfl
      · rw [run_ffmpeg_launch]
        exact .inl rfl
    · rw [if_neg hex]
      exact .inl rfl

theorem afterConcat_inl (p : VideoProcessor) (w : World) (v a : List (Nat × String))
    (r : (Except Unit (Option String × Option String)) × FS)
    (h : afterConcat p w v a = .inl r) : r.1 = .ok (none, none) := by
  unfold afterConcat at h
  by_cases hv : v.isEmpty
  · rw [if_pos hv] at h
    have h2 : ((Except.ok (none, none) : Except Unit (Option String × Option String)),
        w.fs) = r := Sum.inl.inj h
    rw [← h2]
  · rw [if_neg hv] at h
    rcases hc : concatenate_raw_chunks w.videoRepair (w.fs.mkdir w.tempDir) v
        (w.tempDir ++ ("/video_concatenated.webm")) with ⟨b, fs1⟩
    rw [hc] at h
    cases b
    · have h2 : ((Except.ok (none, none) : Except Unit (Option String × Option String)),
          fs1.removeTree w.tempDir) = r := Sum.inl.inj h
      rw [← h2]
    · have h2 : (match audioStep w fs1 a with
        | (audio_concat_path, fs2) =>
          match wavStep p w fs2 audio_concat_path with
          | (saved_audio_path, fs3) => Sum.inr (fs3, audio_concat_path, saved_audio_path))
          = Sum.inl r := h
      rcases ha : audioStep w fs1 a with ⟨acp, fs2⟩
      rw [ha] at h2
      have h3 : (match wavStep p w fs2 acp with
        | (saved_audio_path, fs3) => Sum.inr (fs3, acp, saved_audio_path))
          = Sum.inl r := h2
      rcases hwv : wavStep p w fs2 acp with ⟨sap, fs3⟩
      rw [hwv] at h3
      exact absurd h3 (by simp)

theorem afterConcat_inr_saved (p : VideoProcessor) (w : World)
    (vc ac : List (Nat × String)) (fs3 : FS) (acp sap : Option String)
    (h : afterConcat p w vc ac = .inr (fs3, acp, sap)) :
    sap = none ∨ sap = some (finalAudioPath p w) := by
  unfold afterConcat at h
  by_cases hv : vc.isEmpty
  · rw [if_pos hv] at h
    exact absurd h (by simp)
  · rw [if_neg hv] at h
    rcases hc : concatenate_raw_chunks w.videoRepair (w.fs.mkdir w.tempDir) vc
        (w.tempDir ++ ("/video_concatenated.webm")) with ⟨b, fs1⟩
    rw [hc] at h
    cases b
    · exact absurd h (by simp)
    · have h2 : (match audioStep w fs1 ac with
        | (audio_concat_path, fs2) =>
          match wavStep p w fs2 audio_concat_path with
          | (saved_audio_path, fs3) => Sum.inr (fs3, audio_concat_path, saved_audio_path))
          = Sum.inr (fs3, acp, sap) := h
      rcases ha : audioStep w fs1 ac with ⟨acp2, fs2⟩
      rw [ha] at h2
      have h3 : (match wavStep p w fs2 acp2 with
        | (saved_audio_path, fs3) => Sum.inr (fs3, acp2, saved_audio_path))
          = Sum.inr (fs3, acp, sap) := h2
      rcases hwv : wavStep p w fs2 acp2 with ⟨sap2, fs3b⟩
      rw [hwv] at h3
      have h4 : (fs3b, acp2, sap2) = (fs3, acp, sap) := Sum.inr.inj h3
      simp only [Prod.mk.injEq] at h4
      obtain ⟨-, -, h6⟩ := h4
      have hs := wavStep_saved p w fs2 acp2
      rw [hwv] at hs
      simp only at hs
      rw [← h6]
      exact hs

theorem process_W0 : process_chunks P0 W0 none = (.ok (none, none), W0.fs) := by
  rw [process_chunks_eq P0 W0 none [] []
    (by rw [show W0.fs = emptyFS from rfl, find_empty])]
  rfl

/-- C9: whenever a run returns an output path, it has the mandated shape:
the final video is `{videoOutputDir}/output_{timestamp}.mp4` and the
standalone audio is `{audioOutputDir}/audio_{timestamp}.wav`, both stamped
with the same `w.timestamp` - the run's single second-granularity
`datetime.now().strftime("%Y-%m-%d_%H-%M-%S")` sample; both output
directories are created (if absent) at construction time. -/
theorem output_naming_scheme (p : VideoProcessor) (w : World) (srt : Option String)
    (fs : FS) (v a : Option String)
    (h : (process_chunks p w srt).1 = .ok (v, a)) :
    ((p.initFS fs).dirs p.video_output_dir = true ∧
     (p.initFS fs).dirs p.audio_output_dir = true) ∧
    finalVideoPath p w = p.video_output_dir ++ ("/output_") ++ w.timestamp ++ (".mp4") ∧
    finalAudioPath p w = p.audio_output_dir ++ ("/audio_") ++ w.timestamp ++ (".wav") ∧
    (∀ x, v = some x → x = finalVideoPath p w) ∧
    (∀ y, a = some y → y = finalAudioPath p w) := by
  refine ⟨initFS_dirs p fs, rfl, rfl, ?_⟩
  rcases hf : find_chunk_sequences p w.fs with ⟨vc, ac⟩
  rw [process_chunks_eq p w srt vc ac hf] at h
  unfold process_with_chunks at h
  rcases hac : afterConcat p w vc ac with r | ⟨fs3, acp, sap⟩
  · rw [hac] at h
    have h2 : r.1 = Except.ok (v, a) := h
    rw [afterConcat_inl p w vc ac r hac] at h2
    have h3 := Except.ok.inj h2
    simp only [Prod.mk.injEq] at h3
    obtain ⟨hv2, ha2⟩ := h3
    constructor
    · intro x hx
      rw [← hv2] at hx
      cases hx
    · intro y hy
      rw [← ha2] at hy
      cases hy
  · rw [hac] at h
    have hsap := afterConcat_inr_saved p w vc ac fs3 acp sap hac
    have h2 : (match mux_video_audio_with_captions w.muxRun fs3
        (w.tempDir ++ ("/video_concatenated.webm")) acp srt (finalVideoPath p w) with
      | .error e =>
        ((.error e : Except Unit (Option String × Option String)), fs3.removeTree w.tempDir)
      | .ok (true, fs4) =>
        (.ok (some (finalVideoPath p w), sap), fs4.removeTree w.tempDir)
      | .ok (false, fs4) => (.ok (none, sap), fs4.removeTree w.tempDir)).1
        = Except.ok (v, a) := h
    rcases hm : w.muxRun with ⟨code, ms, me, mb⟩ | _
    · rw [hm] at h2
      rcases code with _ | k
      · rw [mux_exit_zero] at h2
        have h3 : Except.ok (some (finalVideoPath p w), sap) = Except.ok (v, a) := h2
        have h4 := Except.ok.inj h3
        simp only [Prod.mk.injEq] at h4
        obtain ⟨hv2, ha2⟩ := h4
        constructor
        · intro x hx
          rw [← hv2] at hx
          exact (Option.some.inj hx).symm
        · intro y hy
          rw [← ha2] at hy
          rcases hsap with hn | hsome
          · rw [hn] at hy
            cases hy
          · rw [hsome] at hy
            exact (Option.some.inj hy).symm
      · rw [mux_exit_succ] at h2
        have h3 : Except.ok ((none : Option String), sap) = Except.ok (v, a) := h2
        have h4 := Except.ok.inj h3
        simp only [Prod.mk.injEq] at h4
        obtain ⟨hv2, ha2⟩ := h4
        constructor
        · intro x hx
          rw [← hv2] at hx
          cases hx
        · intro y hy
          rw [← ha2] at hy
          rcases hsap with hn | hsome
          · rw [hn] at hy
            cases hy
          · rw [hsome] at hy
            exact (Option.some.inj hy).symm
    · rw [hm, mux_launch] at h2
      have h3 : (Except.error () : Except Unit (Option String × Option String))
          = Except.ok (v, a) := h2
      cases h3

/-- Witness for C9: applied at the empty world, whose run returns
`(None, None)`. -/
theorem output_naming_scheme_witness :
    ((P0.initFS emptyFS).dirs P0.video_output_dir = true ∧
     (P0.initFS emptyFS).dirs P0.audio_output_dir = true) ∧
    finalVideoPath P0 W0 = P0.video_output_dir ++ ("/output_") ++ W0.timestamp ++ (".mp4") ∧
    finalAudioPath P0 W0 = P0.audio_output_dir ++ ("/audio_") ++ W0.timestamp ++ (".wav") ∧
    (∀ x, (none : Option String) = some x → x = finalVideoPath P0 W0) ∧
    (∀ y, (none : Option String) = some y → y = finalAudioPath P0 W0) :=
  output_naming_scheme P0 W0 none emptyFS none none (by rw [process_W0])

/-- C6: when the final mux step fails (non-zero exit), `process_chunks`
returns `finalVideoPath = None` together with exactly the audio field the
WAV transcode step already produced; the same run with a successful mux
returns that same audio field alongside its video path, so the two outcome
fields are independent and a mux failure does not retract a saved audio
path. -/
theorem mux_failure_independent_outcomes (p : VideoProcessor) (w : World)
    (srt : Option String) (vc ac : List (Nat × String)) (k : Nat) (ms me : String)
    (mb : List Nat)
    (hf : find_chunk_sequences p w.fs = (vc, ac))
    (hm : w.muxRun = .exit (Nat.succ k) ms me mb) :
    ∃ a, (process_chunks p w srt).1 = .ok (none, a) ∧
      ∀ s' e' b', ∃ v,
        (process_chunks p { w with muxRun := .exit 0 s' e' b' } srt).1 = .ok (v, a) := by
  rw [process_chunks_eq p w srt vc ac hf]
  rcases hac : afterConcat p w vc ac with r | ⟨fs3, acp, sap⟩
  · refine ⟨none, ?_, ?_⟩
    · unfold process_with_chunks
      rw [hac]
      show r.1 = Except.ok (none, none)
      exact afterConcat_inl p w vc ac r hac
    · intro s' e' b'
      refine ⟨none, ?_⟩
      rw [process_chunks_eq p { w with muxRun := .exit 0 s' e' b' } srt vc ac hf]
      unfold process_with_chunks
      rw [afterConcat_mux_invariant, hac]
      show r.1 = Except.ok (none, none)
      exact afterConcat_inl p w vc ac r hac
  · refine ⟨sap, ?_, ?_⟩
    · unfold process_with_chunks
      rw [hac]
      show (match mux_video_audio_with_captions w.muxRun fs3
          (w.tempDir ++ ("/video_concatenated.webm")) acp srt (finalVideoPath p w) with
        | .error e =>
          ((.error e : Except Unit (Option String × Option String)),
            fs3.removeTree w.tempDir)
        | .ok (true, fs4) =>
          (.ok (some (finalVideoPath p w), sap), fs4.removeTree w.tempDir)
        | .ok (false, fs4) => (.ok (none, sap), fs4.removeTree w.tempDir)).1
          = Except.ok (none, sap)
      rw [hm, mux_exit_succ]
    · intro s' e' b'
      refine ⟨some (finalVideoPath p w), ?_⟩
      rw [process_chunks_eq p { w with muxRun := .exit 0 s' e' b' } srt vc ac hf]
      unfold process_with_chunks
      rw [afterConcat_mux_invariant, hac]
      show (match mux_video_audio_with_captions (ProcOutcome.exit 0 s' e' b') fs3
          (w.tempDir ++ ("/video_concatenated.webm")) acp srt (finalVideoPath p w) with
        | .error e =>
          ((.error e : Except Unit (Option String × Option String)),
            fs3.removeTree w.tempDir)
        | .ok (true, fs4) =>
          (.ok (some (finalVideoPath p w), sap), fs4.removeTree w.tempDir)
        | .ok (false, fs4) => (.ok (none, sap), fs4.removeTree w.tempDir)).1
          = Except.ok (some (finalVideoPath p w), sap)
      rw [mux_exit_zero]

/-- Witness for C6 at the concrete world `W1`, whose mux exits non-zero. -/
theorem mux_failure_independent_outcomes_witness :
    ∃ a, (process_chunks P0 W1 none).1 = .ok (none, a) ∧
      ∀ s' e' b', ∃ v,
        (process_chunks P0 { W1 with muxRun := .exit 0 s' e' b' } none).1 = .ok (v, a) :=
  mux_failure_independent_outcomes P0 W1 none [(0, ("vc/video_0.webm"))]
    [(0, ("ac/audio_0.webm"))] 0 ("") ("muxerr") [] find_FS1 rfl

theorem audioStep_nil (w : World) (fs1 : FS) : audioStep w fs1 [] = (none, fs1) := rfl

theorem audioStep_fail (w : World) (fs1 : FS) (ac : List (Nat × String)) (k : Nat)
    (as ae : String) (ab : List Nat)
    (ha : ¬ac.isEmpty = true)
    (har : w.audioRepair = .exit (Nat.succ k) as ae ab)
    (hfs : fs1.files (w.tempDir ++ ("/audio_concatenated.temp.webm")) = none) :
    audioStep w fs1 ac = (none, fs1) := by
  unfold audioStep
  rw [if_neg ha]
  have hane : ac ≠ [] := by
    intro hnil
    rw [hnil] at ha
    exact ha rfl
  have hflag : (concatenate_raw_chunks w.audioRepair fs1 ac
      (w.tempDir ++ ("/audio_concatenated.webm"))).1 = false := by
    rw [har]
    exact concatenate_flag_exit_succ k as ae ab fs1 ac _
  have hfs2 := concatenate_fs_of_false w.audioRepair fs1 ac
      (w.tempDir ++ ("/audio_concatenated.webm")) hane hflag
  rcases hc : concatenate_raw_chunks w.audioRepair fs1 ac
      (w.tempDir ++ ("/audio_concatenated.webm")) with ⟨b, fs2⟩
  rw [hc] at hflag hfs2
  have hb : b = false := hflag
  subst hb
  have hfs2' : fs2 = fs1 := by
    rw [show (((false : Bool), fs2) : Bool × FS).2 = fs2 from rfl] at hfs2
    rw [hfs2, withSuffix_audio]
    apply FS_ext
    · intro q
      show (if q = w.tempDir ++ ("/audio_concatenated.temp.webm") then none
        else fs1.files q) = fs1.files q
      by_cases hq : q = w.tempDir ++ ("/audio_concatenated.temp.webm")
      · rw [if_pos hq, hq, hfs]
      · rw [if_neg hq]
    · intro q
      rfl
  rw [hfs2']

theorem afterConcat_nil_audio (p : VideoProcessor) (w : World)
    (vc : List (Nat × String)) (fs3 : FS) (acp sap : Option String)
    (h : afterConcat p w vc [] = .inr (fs3, acp, sap)) : sap = none := by
  unfold afterConcat at h
  by_cases hv : vc.isEmpty
  · rw [if_pos hv] at h
    exact absurd h (by simp)
  · rw [if_neg hv] at h
    rcases hc : concatenate_raw_chunks w.videoRepair (w.fs.mkdir w.tempDir) vc
        (w.tempDir ++ ("/video_concatenated.webm")) with ⟨b, fs1⟩
    rw [hc] at h
    cases b
    · exact absurd h (by simp)
    · have h3 : (Sum.inr (fs1, (none : Option String), (none : Option String)) :
          ((Except Unit (Option String × Option String)) × FS) ⊕
            (FS × Option String × Option String)) = .inr (fs3, acp, sap) := h
      have h4 := Sum.inr.inj h3
      simp only [Prod.mk.injEq] at h4
      exact h4.2.2.symm

theorem process_with_chunks_audio_field (p : VideoProcessor) (w : World)
    (srt : Option String) (vc ac : List (Nat × String)) (fs3 : FS)
    (acp sap : Option String) (v a : Option String)
    (hac : afterConcat p w vc ac = .inr (fs3, acp, sap))
    (h : (process_with_chunks p w srt vc ac).1 = .ok (v, a)) : a = sap := by
  unfold process_with_chunks at h
  rw [hac] at h
  have h2 : (match mux_video_audio_with_captions w.muxRun fs3
      (w.tempDir ++ ("/video_concatenated.webm")) acp srt (finalVideoPath p w) with
    | .error e =>
      ((.error e : Except Unit (Option String × Option String)), fs3.removeTree w.tempDir)
    | .ok (true, fs4) =>
      (.ok (some (finalVideoPath p w), sap), fs4.removeTree w.tempDir)
    | .ok (false, fs4) => (.ok (none, sap), fs4.removeTree w.tempDir)).1
      = Except.ok (v, a) := h
  rcases hm : w.muxRun with ⟨code, ms, me, mb⟩ | _
  · rw [hm] at h2
    rcases code with _ | k
    · rw [mux_exit_zero] at h2
      have h3 : Except.ok (some (finalVideoPath p w), sap) = Except.ok (v, a) := h2
      exact (congrArg Prod.snd (Except.ok.inj h3)).symm
    · rw [mux_exit_succ] at h2
      have h3 : Except.ok ((none : Option String), sap) = Except.ok (v, a) := h2
      exact (congrArg Prod.snd (Except.ok.inj h3)).symm
  · rw [hm, mux_launch] at h2
    have h3 : (Except.error () : Except Unit (Option String × Option String))
        = Except.ok (v, a) := h2
    cases h3

/-- C5: when audio chunks exist but audio concatenation fails while the
pipeline otherwise proceeds, the run is exactly the run that would have
happened had no audio chunks been found at all: every downstream step
(WAV transcode, mux) sees audio as absent, no standalone audio artifact is
produced, and the final video path is unaffected by the audio failure. -/
theorem audio_concat_failure_degrades (p : VideoProcessor) (w : World)
    (srt : Option String) (vc ac : List (Nat × String)) (k : Nat) (as ae : String)
    (ab : List Nat)
    (hf : find_chunk_sequences p w.fs = (vc, ac))
    (ha : ¬ac.isEmpty = true)
    (har : w.audioRepair = .exit (Nat.succ k) as ae ab)
    (hfresh : freshDir w.fs w.tempDir) :
    process_chunks p w srt = process_with_chunks p w srt vc [] ∧
    ∀ v a, (process_with_chunks p w srt vc []).1 = .ok (v, a) → a = none := by
  constructor
  · rw [process_chunks_eq p w srt vc ac hf]
    unfold process_with_chunks
    have hacEq : afterConcat p w vc ac = afterConcat p w vc [] := by
      unfold afterConcat
      by_cases hv : vc.isEmpty
      · rw [if_pos hv, if_pos hv]
      · rw [if_neg hv, if_neg hv]
        rcases hc : concatenate_raw_chunks w.videoRepair (w.fs.mkdir w.tempDir) vc
            (w.tempDir ++ ("/video_concatenated.webm")) with ⟨b, fs1⟩
        cases b
        · rfl
        · have hvne : vc ≠ [] := by
            intro hnil
            rw [hnil] at hv
            exact hv rfl
          have hfs1eq := concatenate_fs_of_true w.videoRepair (w.fs.mkdir w.tempDir) vc
              (w.tempDir ++ ("/video_concatenated.webm")) (by rw [hc])
          rw [hc] at hfs1eq
          have hfs1eq' : fs1 = ((w.fs.mkdir w.tempDir).write
              (w.tempDir ++ ("/video_concatenated.webm")) w.videoRepair.written).remove
              (withSuffix (w.tempDir ++ ("/video_concatenated.webm")) (".temp.webm")) :=
            hfs1eq
          have hfs : fs1.files (w.tempDir ++ ("/audio_concatenated.temp.webm")) = none := by
            rw [hfs1eq', withSuffix_video]
            show (if (w.tempDir ++ ("/audio_concatenated.temp.webm"))
                = (w.tempDir ++ ("/video_concatenated.temp.webm")) then none
              else if (w.tempDir ++ ("/audio_concatenated.temp.webm"))
                = (w.tempDir ++ ("/video_concatenated.webm")) then some w.videoRepair.written
              else w.fs.files (w.tempDir ++ ("/audio_concatenated.temp.webm"))) = none
            rw [if_neg (string_append_ne (by decide)),
              if_neg (string_append_ne (by decide))]
            exact hfresh.2 _ (underDir_append w.tempDir ("/audio_concatenated.temp.webm")
              (("audio_concatenated.temp.webm").data) rfl)
          show (match audioStep w fs1 ac with
            | (audio_concat_path, fs2) =>
              match wavStep p w fs2 audio_concat_path with
              | (saved_audio_path, fs3) => Sum.inr (fs3, audio_concat_path, saved_audio_path))
            = (match audioStep w fs1 [] with
            | (audio_concat_path, fs2) =>
              match wavStep p w fs2 audio_concat_path with
              | (saved_audio_path, fs3) => Sum.inr (fs3, audio_concat_path, saved_audio_path))
          rw [audioStep_fail w fs1 ac k as ae ab ha har hfs, audioStep_nil]
    rw [hacEq]
  · intro v a h
    rcases hac0 : afterConcat p w vc [] with r | ⟨fs3, acp, sap⟩
    · unfold process_with_chunks at h
      rw [hac0] at h
      have h2 : r.1 = Except.ok (v, a) := h
      rw [afterConcat_inl p w vc [] r hac0] at h2
      have h3 := Except.ok.inj h2
      exact (congrArg Prod.snd h3).symm
    · have hsap := afterConcat_nil_audio p w vc fs3 acp sap hac0
      have haf := process_with_chunks_audio_field p w srt vc [] fs3 acp sap v a hac0 h
      rw [haf, hsap]

theorem freshDir_FS1 : freshDir FS1 ("tmp") := by
  constructor
  · rfl
  · intro q hq
    show (if q = ("vc/video_0.webm") then some [1, 2]
      else if q = ("ac/audio_0.webm") then some [3] else none) = none
    by_cases h1 : q = ("vc/video_0.webm")
    · subst h1
      exact absurd hq (by decide)
    · rw [if_neg h1]
      by_cases h2 : q = ("ac/audio_0.webm")
      · subst h2
        exact absurd hq (by decide)
      · rw [if_neg h2]

/-- Witness for C5 at the concrete world `W1`, whose audio repair exits
non-zero. -/
theorem audio_concat_failure_degrades_witness :
    process_chunks P0 W1 none
      = process_with_chunks P0 W1 none [(0, ("vc/video_0.webm"))] [] ∧
    ∀ v a, (process_with_chunks P0 W1 none [(0, ("vc/video_0.webm"))] []).1 = .ok (v, a) →
      a = none :=
  audio_concat_failure_degrades P0 W1 none [(0, ("vc/video_0.webm"))]
    [(0, ("ac/audio_0.webm"))] 0 ("") ("boom") [] find_FS1 (by decide) rfl freshDir_FS1

/-! Filesystem-effect lemmas for the workspace-cleanup claim. -/

theorem removeTree_files_under (fs : FS) (d q : String) (hq : underDir d q = true) :
    (fs.removeTree d).files q = none := by
  show (if underDir d q = true then none else fs.files q) = none
  rw [if_pos hq]

theorem removeTree_files_not_under (fs : FS) (d q : String) (hq : underDir d q = false) :
    (fs.removeTree d).files q = fs.files q := by
  show (if underDir d q = true then none else fs.files q) = fs.files q
  rw [if_neg (by simp [hq])]

theorem removeTree_dirs_self (fs : FS) (d : String) : (fs.removeTree d).dirs d = false := by
  show (if d = d then false else if underDir d d = true then false else fs.dirs d) = false
  rw [if_pos rfl]

theorem ne_of_not_under (d q r : String) (l : List Char) (hr : r.data = '/' :: l)
    (hq : underDir d q = false) : q ≠ d ++ r := by
  intro hqe
  rw [hqe, underDir_append d r l hr] at hq
  cases hq

theorem concat_preserves (o : ProcOutcome) (fs : FS) (chunks : List (Nat × String))
    (out : String) (q : String)
    (hq1 : q ≠ withSuffix out (".temp.webm")) (hq2 : q ≠ out) :
    (concatenate_raw_chunks o fs chunks out).2.files q = fs.files q := by
  cases chunks with
  | nil => rfl
  | cons c rest =>
    rcases hb : (concatenate_raw_chunks o fs (c :: rest) out).1 with _ | _
    · rw [concatenate_fs_of_false o fs (c :: rest) out (by simp) hb]
      show (if q = withSuffix out (".temp.webm") then none else fs.files q) = fs.files q
      rw [if_neg hq1]
    · rw [concatenate_fs_of_true o fs (c :: rest) out hb]
      show (if q = withSuffix out (".temp.webm") then none
        else if q = out then some o.written else fs.files q) = fs.files q
      rw [if_neg hq1, if_neg hq2]

theorem concat_dirs (o : ProcOutcome) (fs : FS) (chunks : List (Nat × String))
    (out : String) : (concatenate_raw_chunks o fs chunks out).2.dirs = fs.dirs := by
  cases chunks with
  | nil => rfl
  | cons c rest =>
    rcases hb : (concatenate_raw_chunks o fs (c :: rest) out).1 with _ | _
    · rw [concatenate_fs_of_false o fs (c :: rest) out (by simp) hb]
      rfl
    · rw [concatenate_fs_of_true o fs (c :: rest) out hb]
      rfl

theorem audioStep_preserves (w : World) (fs1 : FS) (ac : List (Nat × String))
    (acp : Option String) (fs2 : FS) (h : audioStep w fs1 ac = (acp, fs2)) (q : String)
    (hq1 : q ≠ w.tempDir ++ ("/audio_concatenated.temp.webm"))
    (hq2 : q ≠ w.tempDir ++ ("/audio_concatenated.webm")) :
    fs2.files q = fs1.files q := by
  unfold audioStep at h
  by_cases ha : ac.isEmpty = true
  · rw [if_pos ha] at h
    have h2 : fs1 = fs2 := congrArg Prod.snd h
    rw [← h2]
  · rw [if_neg ha] at h
    have hpres := concat_preserves w.audioRepair fs1 ac
        (w.tempDir ++ ("/audio_concatenated.webm")) q
        (by rw [withSuffix_audio]; exact hq1) hq2
    rcases hc : concatenate_raw_chunks w.audioRepair fs1 ac
        (w.tempDir ++ ("/audio_concatenated.webm")) with ⟨b, fs2'⟩
    rw [hc] at h hpres
    cases b
    · have h2 : fs2' = fs2 := congrArg Prod.snd h
      rw [← h2]
      exact hpres
    · have h2 : fs2' = fs2 := congrArg Prod.snd h
      rw [← h2]
      exact hpres

theorem audioStep_dirs (w : World) (fs1 : FS) (ac : List (Nat × String))
    (acp : Option String) (fs2 : FS) (h : audioStep w fs1 ac = (acp, fs2)) :
    fs2.dirs = fs1.dirs := by
  unfold audioStep at h
  by_cases ha : ac.isEmpty = true
  · rw [if_pos ha] at h
    have h2 : fs1 = fs2 := congrArg Prod.snd h
    rw [← h2]
  · rw [if_neg ha] at h
    have hd := concat_dirs w.audioRepair fs1 ac (w.tempDir ++ ("/audio_concatenated.webm"))
    rcases hc : concatenate_raw_chunks w.audioRepair fs1 ac
        (w.tempDir ++ ("/audio_concatenated.webm")) with ⟨b, fs2'⟩
    rw [hc] at h hd
    cases b
    · have h2 : fs2' = fs2 := congrArg Prod.snd h
      rw [← h2]
      exact hd
    · have h2 : fs2' = fs2 := congrArg Prod.snd h
      rw [← h2]
      exact hd

theorem wavStep_none_to_none (p : VideoProcessor) (w : World) (fs2 : FS)
    (acp sap : Option String) (fs3 : FS) (h : wavStep p w fs2 acp = (sap, fs3))
    (q : String) (hn : fs3.files q = none) : fs2.files q = none := by
  rcases acp with _ | ap
  · have h2 : fs2 = fs3 := congrArg Prod.snd h
    rw [h2]
    exact hn
  · rw [wavStep_some] at h
    by_cases hex : (fs2.files ap).isSome = true
    · rw [if_pos hex] at h
      rcases hwt : w.wavTranscode with ⟨code, s, e, b⟩ | _
      · rw [hwt] at h
        rcases code with _ | k
        · rw [run_ffmpeg_zero] at h
          have h2 : fs2.write (finalAudioPath p w) (ProcOutcome.exit 0 s e b).written = fs3 :=
            congrArg Prod.snd h
          rw [← h2] at hn
          have h3 : (if q = finalAudioPath p w
              then some (ProcOutcome.exit 0 s e b).written else fs2.files q) = none := hn
          by_cases hq : q = finalAudioPath p w
          · rw [if_pos hq] at h3
            cases h3
          · rw [if_neg hq] at h3
            exact h3
        · rw [run_ffmpeg_succ] at h
          have h2 : fs2 = fs3 := congrArg Prod.snd h
          rw [h2]
          exact hn
      · rw [hwt, run_ffmpeg_launch] at h
        have h2 : fs2 = fs3 := congrArg Prod.snd h
        rw [h2]
        exact hn
    · rw [if_neg hex] at h
      have h2 : fs2 = fs3 := congrArg Prod.snd h
      rw [h2]
      exact hn

theorem wavStep_dirs (p : VideoProcessor) (w : World) (fs2 : FS)
    (acp sap : Option String) (fs3 : FS) (h : wavStep p w fs2 acp = (sap, fs3)) :
    fs3.dirs = fs2.dirs := by
  rcases acp with _ | ap
  · have h2 : fs2 = fs3 := congrArg Prod.snd h
    rw [← h2]
  · rw [wavStep_some] at h
    by_cases hex : (fs2.files ap).isSome = true
    · rw [if_pos hex] at h
      rcases hwt : w.wavTranscode with ⟨code, s, e, b⟩ | _
      · rw [hwt] at h
        rcases code with _ | k
        · rw [run_ffmpeg_zero] at h
          have h2 : fs2.write (finalAudioPath p w) (ProcOutcome.exit 0 s e b).written = fs3 :=
            congrArg Prod.snd h
          rw [← h2]
          rfl
        · rw [run_ffmpeg_succ] at h
          have h2 : fs2 = fs3 := congrArg Prod.snd h
          rw [← h2]
      · rw [hwt, run_ffmpeg_launch] at h
        have h2 : fs2 = fs3 := congrArg Prod.snd h
        rw [← h2]
    · rw [if_neg hex] at h
      have h2 : fs2 = fs3 := congrArg Prod.snd h
      rw [← h2]

theorem afterConcat_inl_fs (p : VideoProcessor) (w : World) (vc ac : List (Nat × String))
    (r : (Except Unit (Option String × Option String)) × FS)
    (h : afterConcat p w vc ac = .inl r) (hfresh : freshDir w.fs w.tempDir) :
    (∀ q, underDir w.tempDir q = true → r.2.files q = none) ∧
    r.2.dirs w.tempDir = false ∧
    (∀ q, underDir w.tempDir q = false → r.2.files q = none → w.fs.files q = none) := by
  unfold afterConcat at h
  by_cases hv : vc.isEmpty = true
  · rw [if_pos hv] at h
    have h2 : ((Except.ok (none, none) : Except Unit (Option String × Option String)),
        w.fs) = r := Sum.inl.inj h
    rw [← h2]
    exact ⟨hfresh.2, hfresh.1, fun q _ hn => hn⟩
  · rw [if_neg hv] at h
    rcases hc : concatenate_raw_chunks w.videoRepair (w.fs.mkdir w.tempDir) vc
        (w.tempDir ++ ("/video_concatenated.webm")) with ⟨b, fs1⟩
    rw [hc] at h
    cases b
    · have h2 : ((Except.ok (none, none) : Except Unit (Option String × Option String)),
          fs1.removeTree w.tempDir) = r := Sum.inl.inj h
      rw [← h2]
      refine ⟨fun q hq => removeTree_files_under fs1 w.tempDir q hq,
        removeTree_dirs_self fs1 w.tempDir, ?_⟩
      intro q hq hn
      rw [removeTree_files_not_under fs1 w.tempDir q hq] at hn
      have hp := concat_preserves w.videoRepair (w.fs.mkdir w.tempDir) vc
          (w.tempDir ++ ("/video_concatenated.webm")) q
          (by
            rw [withSuffix_video]
            exact ne_of_not_under w.tempDir q ("/video_concatenated.temp.webm")
              (("video_concatenated.temp.webm").data) rfl hq)
          (ne_of_not_under w.tempDir q ("/video_concatenated.webm")
            (("video_concatenated.webm").data) rfl hq)
      rw [hc] at hp
      have hp2 : fs1.files q = w.fs.files q := hp
      rw [← hp2]
      exact hn
    · have h2 : (match audioStep w fs1 ac with
        | (audio_concat_path, fs2) =>
          match wavStep p w fs2 audio_concat_path with
          | (saved_audio_path, fs3) => Sum.inr (fs3, audio_concat_path, saved_audio_path))
          = Sum.inl r := h
      rcases ha : audioStep w fs1 ac with ⟨acp2, fs2⟩
      rw [ha] at h2
      have h3 : (match wavStep p w fs2 acp2 with
        | (saved_audio_path, fs3) => Sum.inr (fs3, acp2, saved_audio_path))
          = Sum.inl r := h2
      rcases hwv : wavStep p w fs2 acp2 with ⟨sap2, fs3b⟩
      rw [hwv] at h3
      exact absurd h3 (by simp)

theorem afterConcat_inr_fs (p : VideoProcessor) (w : World) (vc ac : List (Nat × String))
    (fs3 : FS) (acp sap : Option String)
    (h : afterConcat p w vc ac = .inr (fs3, acp, sap)) :
    ∀ q, underDir w.tempDir q = false → fs3.files q = none → w.fs.files q = none := by
  unfold afterConcat at h
  by_cases hv : vc.isEmpty = true
  · rw [if_pos hv] at h
    exact absurd h (by simp)
  · rw [if_neg hv] at h
    rcases hc : concatenate_raw_chunks w.videoRepair (w.fs.mkdir w.tempDir) vc
        (w.tempDir ++ ("/video_concatenated.webm")) with ⟨b, fs1⟩
    rw [hc] at h
    cases b
    · exact absurd h (by simp)
    · have h2 : (match audioStep w fs1 ac with
        | (audio_concat_path, fs2) =>
          match wavStep p w fs2 audio_concat_path with
          | (saved_audio_path, fs3) => Sum.inr (fs3, audio_concat_path, saved_audio_path))
          = Sum.inr (fs3, acp, sap) := h
      rcases ha : audioStep w fs1 ac with ⟨acp2, fs2⟩
      rw [ha] at h2
      have h3 : (match wavStep p w fs2 acp2 with
        | (saved_audio_path, fs3) => Sum.inr (fs3, acp2, saved_audio_path))
          = Sum.inr (fs3, acp, sap) := h2
      rcases hwv : wavStep p w fs2 acp2 with ⟨sap2, fs3b⟩
      rw [hwv] at h3
      have h4 := Sum.inr.inj h3
      simp only [Prod.mk.injEq] at h4
      obtain ⟨hfs3, -, -⟩ := h4
      intro q hq hn
      rw [← hfs3] at hn
      have hn2 := wavStep_none_to_none p w fs2 acp2 sap2 fs3b hwv q hn
      have hn3 : fs1.files q = none := by
        rw [← audioStep_preserves w fs1 ac acp2 fs2 ha q
          (ne_of_not_under w.tempDir q ("/audio_concatenated.temp.webm")
            (("audio_concatenated.temp.webm").data) rfl hq)
          (ne_of_not_under w.tempDir q ("/audio_concatenated.webm")
            (("audio_concatenated.webm").data) rfl hq)]
        exact hn2
      have hp := concat_preserves w.videoRepair (w.fs.mkdir w.tempDir) vc
          (w.tempDir ++ ("/video_concatenated.webm")) q
          (by
            rw [withSuffix_video]
            exact ne_of_not_under w.tempDir q ("/video_concatenated.temp.webm")
              (("video_concatenated.temp.webm").data) rfl hq)
          (ne_of_not_under w.tempDir q ("/video_concatenated.webm")
            (("video_concatenated.webm").data) rfl hq)
      rw [hc] at hp
      have hp2 : fs1.files q = w.fs.files q := hp
      rw [← hp2]
      exact hn3

/-- C8: for every run over a fresh temporary directory name, when
`process_chunks` returns - through success, partial failure (failed audio
or mux, even a propagating mux launch failure), or early failure (no video
chunks, failed video concatenation) - the scoped temporary workspace no
longer exists on disk: no file under it remains and the directory itself is
gone; moreover the run never deletes any file outside the workspace, so
final artifacts written to the output directories are never removed. -/
theorem temp_workspace_always_cleaned (p : VideoProcessor) (w : World)
    (srt : Option String) (hfresh : freshDir w.fs w.tempDir) :
    (∀ q, underDir w.tempDir q = true → (process_chunks p w srt).2.files q = none) ∧
    (process_chunks p w srt).2.dirs w.tempDir = false ∧
    (∀ q, underDir w.tempDir q = false → (process_chunks p w srt).2.files q = none →
      w.fs.files q = none) := by
  rcases hf : find_chunk_sequences p w.fs with ⟨vc, ac⟩
  rw [process_chunks_eq p w srt vc ac hf]
  unfold process_with_chunks
  rcases hac : afterConcat p w vc ac with r | ⟨fs3, acp, sap⟩
  · exact afterConcat_inl_fs p w vc ac r hac hfresh
  · have hout := afterConcat_inr_fs p w vc ac fs3 acp sap hac
    have hgoal : ∀ (fs4 : FS), (∀ q, fs4.files q = none → fs3.files q = none) →
        (∀ q, underDir w.tempDir q = true →
          (fs4.removeTree w.tempDir).files q = none) ∧
        (fs4.removeTree w.tempDir).dirs w.tempDir = false ∧
        (∀ q, underDir w.tempDir q = false →
          (fs4.removeTree w.tempDir).files q = none → w.fs.files q = none) := by
      intro fs4 hzz
      refine ⟨fun q hq => removeTree_files_under fs4 w.tempDir q hq,
        removeTree_dirs_self fs4 w.tempDir, ?_⟩
      intro q hq hn
      rw [removeTree_files_not_under fs4 w.tempDir q hq] at hn
      exact hout q hq (hzz q hn)
    have key : ∀ (res : (Except Unit (Option String × Option String)) × FS),
        res = (match mux_video_audio_with_captions w.muxRun fs3
            (w.tempDir ++ ("/video_concatenated.webm")) acp srt (finalVideoPath p w) with
          | .error e =>
            ((.error e : Except Unit (Option String × Option String)),
              fs3.removeTree w.tempDir)
          | .ok (true, fs4) =>
            (.ok (some (finalVideoPath p w), sap), fs4.removeTree w.tempDir)
          | .ok (false, fs4) => (.ok (none, sap), fs4.removeTree w.tempDir)) →
        (∀ q, underDir w.tempDir q = true → res.2.files q = none) ∧
        res.2.dirs w.tempDir = false ∧
        (∀ q, underDir w.tempDir q = false → res.2.files q = none →
          w.fs.files q = none) := by
      intro res hres
      rcases hm : w.muxRun with ⟨code, ms, me, mb⟩ | _
      · rw [hm] at hres
        rcases code with _ | k
        · rw [mux_exit_zero] at hres
          subst hres
          refine hgoal (fs3.write (finalVideoPath p w) mb) ?_
          intro q hn
          have h3 : (if q = finalVideoPath p w then some mb else fs3.files q) = none := hn
          by_cases hq : q = finalVideoPath p w
          · rw [if_pos hq] at h3
            cases h3
          · rw [if_neg hq] at h3
            exact h3
        · rw [mux_exit_succ] at hres
          subst hres
          exact hgoal fs3 (fun q hn => hn)
      · rw [hm, mux_launch] at hres
        subst hres
        exact hgoal fs3 (fun q hn => hn)
    exact key _ rfl

/-- Witness for C8 at the empty world: nothing under the fresh workspace
name exists after the run, the directory is gone, and no file outside it
was deleted. -/
theorem temp_workspace_always_cleaned_witness :
    (∀ q, underDir W0.tempDir q = true → (process_chunks P0 W0 none).2.files q = none) ∧
    (process_chunks P0 W0 none).2.dirs W0.tempDir = false ∧
    (∀ q, underDir W0.tempDir q = false → (process_chunks P0 W0 none).2.files q = none →
      W0.fs.files q = none) :=
  temp_workspace_always_cleaned P0 W0 none ⟨rfl, fun _ _ => rfl⟩
